import Mathlib

/-!
Verification development for the msc repository: a shallow embedding of the
dataset, sampling and utility code (src/data, src/util) over exact rational
arithmetic, with theorems settling the behavioural claims about splits,
normalization, vicinal sampling, performance reduction and the loss term.

Conventions: numpy/torch float arrays are modelled as `List ℚ` (float
literals such as 0.55 become exact rationals); RNG draws are explicit
parameters constrained by hypotheses; Python exceptions become `Except`.
-/

set_option autoImplicit false

namespace MscSpec

/-! ### Enumerations (src/util/enums.py) -/

inductive DataSplit
  | TRAIN
  | VAL
  | TEST
  | HOLDOUT
deriving DecidableEq, Repr

inductive VicinityType
  | HARD
  | SOFT
deriving DecidableEq, Repr

inductive ReductionType
  | SUM
  | MEAN
  | NONE
deriving DecidableEq, Repr

/-- The Python error kinds raised by the embedded code. -/
inductive PyError
  | valueError
  | notImplementedError
deriving DecidableEq, Repr

/-! ### AbstractDataset (src/data/abstract_classes.py) -/

/-- The split-mode field of `AbstractDataset`; `none` models Python `None`. -/
structure AbstractDatasetState where
  mode : Option DataSplit
deriving DecidableEq, Repr

/-- Embeds `AbstractDataset.__init__`: sets `self.mode = DataSplit.TRAIN`. -/
def abstractDatasetInit : AbstractDatasetState :=
  ⟨some DataSplit.TRAIN⟩

/-- Embeds `AbstractDataset.set_mode`. -/
def set_mode (_ : AbstractDatasetState) (mode : DataSplit) : AbstractDatasetState :=
  ⟨some mode⟩

/-- Embeds `AbstractDataset.__len__`: raises `ValueError` when `self.mode is None`,
otherwise delegates to the concrete `_len` (which reads the current mode). -/
def datasetLen (st : AbstractDatasetState) (lenImpl : DataSplit → ℕ) : Except PyError ℕ :=
  match st.mode with
  | none => Except.error PyError.valueError
  | some m => Except.ok (lenImpl m)

/-- Embeds `AbstractDataset.__getitem__`: raises `ValueError` when `self.mode is None`,
otherwise delegates to the concrete `_getitem`. A sample is a pixel list
paired with a rational label. -/
def datasetGetitem (st : AbstractDatasetState) (getImpl : DataSplit → ℕ → List ℚ × ℚ)
    (index : ℕ) : Except PyError (List ℚ × ℚ) :=
  match st.mode with
  | none => Except.error PyError.valueError
  | some m => Except.ok (getImpl m index)

/-- Embeds `AbstractDataset.normalize`: scale an array from [0,1] to [-1,1] via `2 * x - 1`. -/
def normalize (x : List ℚ) : List ℚ :=
  x.map (fun v => 2 * v - 1)

/-- Embeds `AbstractDataset.denormalize`: scale an array from [-1,1] to [0,1] via `(x + 1) / 2`. -/
def denormalize (x : List ℚ) : List ℚ :=
  x.map (fun v => (v + 1) / 2)

/-! ### DepthOfField splits (src/data/dof.py)

`__init__` computes `int(np.floor(0.55 * num_images))` and friends; the float
literals are modelled as the exact rationals 0.55 and 0.15. -/

/-- Embeds `self.len_train = int(np.floor(0.55 * num_images))`. -/
def len_train (N : ℕ) : ℤ := ⌊(0.55 : ℚ) * N⌋

/-- Embeds `self.len_val = int(np.floor(0.15 * num_images))`. -/
def len_val (N : ℕ) : ℤ := ⌊(0.15 : ℚ) * N⌋

/-- Embeds `self.len_test = int(np.floor(0.15 * num_images))`. -/
def len_test (N : ℕ) : ℤ := ⌊(0.15 : ℚ) * N⌋

/-- Embeds `self.len_holdout = int(np.ceil(0.15 * num_images))`. -/
def len_holdout (N : ℕ) : ℤ := ⌈(0.15 : ℚ) * N⌉

/-- Embeds `DepthOfField._get_idx_offset`: contiguous offsets per split. -/
def dofIdxOffset (N : ℕ) : DataSplit → ℤ
  | DataSplit.TRAIN => 0
  | DataSplit.VAL => len_train N
  | DataSplit.TEST => len_train N + len_val N
  | DataSplit.HOLDOUT => len_train N + len_val N + len_test N

/-- Embeds `DepthOfField._len`: split length per mode. -/
def dofLen (N : ℕ) : DataSplit → ℤ
  | DataSplit.TRAIN => len_train N
  | DataSplit.VAL => len_val N
  | DataSplit.TEST => len_test N
  | DataSplit.HOLDOUT => len_holdout N

/-- Embeds `DepthOfField._getitem`: the underlying list index accessed for a
within-split index, namely `index + self._get_idx_offset()`. -/
def dofUnderlyingIndex (N : ℕ) (mode : DataSplit) (index : ℤ) : ℤ :=
  index + dofIdxOffset N mode

theorem len_train_eq_div (N : ℕ) : len_train N = (11 * N : ℤ) / 20 := by
  have h : (0.55 : ℚ) * N = ((11 * N : ℤ) : ℚ) / ((20 : ℕ) : ℚ) := by
    push_cast
    norm_num
    ring
  rw [len_train, h, Rat.floor_intCast_div_natCast]
  norm_num

theorem len_val_eq_div (N : ℕ) : len_val N = (3 * N : ℤ) / 20 := by
  have h : (0.15 : ℚ) * N = ((3 * N : ℤ) : ℚ) / ((20 : ℕ) : ℚ) := by
    push_cast
    norm_num
    ring
  rw [len_val, h, Rat.floor_intCast_div_natCast]
  norm_num

theorem len_test_eq_div (N : ℕ) : len_test N = (3 * N : ℤ) / 20 := by
  have h : (0.15 : ℚ) * N = ((3 * N : ℤ) : ℚ) / ((20 : ℕ) : ℚ) := by
    push_cast
    norm_num
    ring
  rw [len_test, h, Rat.floor_intCast_div_natCast]
  norm_num

theorem len_holdout_eq_div (N : ℕ) : len_holdout N = -((-(3 * N) : ℤ) / 20) := by
  have h : -((0.15 : ℚ) * N) = ((-(3 * N) : ℤ) : ℚ) / ((20 : ℕ) : ℚ) := by
    push_cast
    norm_num
    ring
  rw [len_holdout, ← neg_inj, ← Int.floor_neg, h, Rat.floor_intCast_div_natCast]
  norm_num

theorem denormalize_normalize (x : List ℚ) : denormalize (normalize x) = x := by
  induction x with
  | nil => rfl
  | cons a l ih =>
    simp only [normalize, denormalize, List.map_cons] at ih ⊢
    rw [List.cons.injEq]
    exact ⟨by ring, ih⟩

/-- C9: for every array `x` with all values in [0,1],
`denormalize (normalize x)` equals `x` exactly, `normalize` being the linear
map `2 * x - 1` and `denormalize` the linear map `(x + 1) / 2`. -/
theorem normalize_denormalize_roundtrip (x : List ℚ) (h : ∀ v ∈ x, 0 ≤ v ∧ v ≤ 1) :
    denormalize (normalize x) = x :=
  denormalize_normalize x

theorem normalize_denormalize_roundtrip_witness :
    denormalize (normalize [0, 1/2, 1]) = [0, 1/2, 1] :=
  normalize_denormalize_roundtrip [0, 1/2, 1] (by intro v hv; fin_cases hv <;> norm_num)

/-- C5 counterexample: at corpus size `N = 5` the four DepthOfField split
sizes are 2, 0, 0, 1, summing to 3, which is not within ±1 of 5. -/
theorem dof_split_coverage_counterexample :
    len_train 5 + len_val 5 + len_test 5 + len_holdout 5 = 3 ∧
    ¬ |len_train 5 + len_val 5 + len_test 5 + len_holdout 5 - (5 : ℤ)| ≤ 1 := by
  have h1 := len_train_eq_div 5
  have h2 := len_val_eq_div 5
  have h3 := len_test_eq_div 5
  have h4 := len_holdout_eq_div 5
  norm_num at h1 h2 h3 h4
  rw [h1, h2, h3, h4]
  norm_num

/-- C5 (amended): `len_train = ⌊0.55 N⌋`, `len_val = len_test = ⌊0.15 N⌋`,
`len_holdout = ⌈0.15 N⌉` (equivalently the integer divisions shown), and the
four sizes sum to at least `N - 2` and at most `N` (not within ±1 of `N`:
the deficit can reach 2). -/
theorem dof_split_coverage (N : ℕ) :
    len_train N = (11 * N : ℤ) / 20 ∧
    len_val N = (3 * N : ℤ) / 20 ∧
    len_test N = (3 * N : ℤ) / 20 ∧
    len_holdout N = ((3 * N : ℤ) + 19) / 20 ∧
    (N : ℤ) - 2 ≤ len_train N + len_val N + len_test N + len_holdout N ∧
    len_train N + len_val N + len_test N + len_holdout N ≤ N := by
  have h1 := len_train_eq_div N
  have h2 := len_val_eq_div N
  have h3 := len_test_eq_div N
  have h4 := len_holdout_eq_div N
  refine ⟨h1, h2, h3, ?_, ?_, ?_⟩ <;> omega

/-- C10: for every corpus size `N`, the four DepthOfField split index ranges
are pairwise disjoint, the split sizes sum to at most `N`, and for every
split mode and in-split index the underlying list index accessed by
`_getitem` is strictly in bounds. -/
theorem dof_ranges_safe (N : ℕ) :
    (len_train N + len_val N + len_test N + len_holdout N ≤ N) ∧
    (∀ m m', m ≠ m' →
      dofIdxOffset N m + dofLen N m ≤ dofIdxOffset N m' ∨
      dofIdxOffset N m' + dofLen N m' ≤ dofIdxOffset N m) ∧
    (∀ m, ∀ i : ℤ, 0 ≤ i → i < dofLen N m →
      0 ≤ dofUnderlyingIndex N m i ∧ dofUnderlyingIndex N m i < N) := by
  have h1 := len_train_eq_div N
  have h2 := len_val_eq_div N
  have h3 := len_test_eq_div N
  have h4 := len_holdout_eq_div N
  refine ⟨by omega, ?_, ?_⟩
  · intro m m' hne
    cases m <;> cases m' <;>
      first
        | exact absurd rfl hne
        | (simp only [dofIdxOffset, dofLen]; omega)
  · intro m i h0 hi
    have hsum : len_train N + len_val N + len_test N + len_holdout N ≤ N := by omega
    have hnn : 0 ≤ len_train N ∧ 0 ≤ len_val N ∧ 0 ≤ len_test N ∧ 0 ≤ len_holdout N := by
      omega
    cases m <;>
      (simp only [dofUnderlyingIndex, dofIdxOffset, dofLen] at hi ⊢; omega)

theorem dof_ranges_safe_witness :
    (dofIdxOffset 20 DataSplit.TRAIN + dofLen 20 DataSplit.TRAIN ≤
        dofIdxOffset 20 DataSplit.VAL ∨
      dofIdxOffset 20 DataSplit.VAL + dofLen 20 DataSplit.VAL ≤
        dofIdxOffset 20 DataSplit.TRAIN) ∧
    (0 ≤ dofUnderlyingIndex 20 DataSplit.TEST 0 ∧
      dofUnderlyingIndex 20 DataSplit.TEST 0 < 20) :=
  ⟨(dof_ranges_safe 20).2.1 DataSplit.TRAIN DataSplit.VAL (by decide),
   (dof_ranges_safe 20).2.2 DataSplit.TEST 0 (by decide)
     (by simp only [dofLen, len_test_eq_div]; decide)⟩

/-- C6 counterexample: a freshly constructed dataset (base initializer, no
`set_mode` call) does not raise: `__init__` sets `mode = DataSplit.TRAIN`, so
`len` returns the TRAIN-split length (11 for a 20-image DepthOfField corpus)
and indexing returns a (sample, label) pair. -/
theorem invalid_state_counterexample :
    datasetLen abstractDatasetInit (fun m => (dofLen 20 m).toNat) = Except.ok 11 ∧
    datasetGetitem abstractDatasetInit (fun _ _ => ([0], 0)) 0 = Except.ok ([0], 0) := by
  constructor
  · show Except.ok ((dofLen 20 DataSplit.TRAIN).toNat) = Except.ok 11
    have h1 := len_train_eq_div 20
    simp only [dofLen]
    rw [h1]
    rfl
  · rfl

/-- C6 (amended): `__len__`/`__getitem__` raise `ValueError` exactly when the
mode field is Python `None`; since `AbstractDataset.__init__` initializes the
mode to `DataSplit.TRAIN`, a freshly constructed dataset raises no error and
produces a result without any `set_mode` call. -/
theorem invalid_state_behavior (st : AbstractDatasetState) (lenImpl : DataSplit → ℕ)
    (getImpl : DataSplit → ℕ → List ℚ × ℚ) (index : ℕ) :
    (st.mode = none →
      datasetLen st lenImpl = Except.error PyError.valueError ∧
      datasetGetitem st getImpl index = Except.error PyError.valueError) ∧
    (∀ m, st.mode = some m →
      datasetLen st lenImpl = Except.ok (lenImpl m) ∧
      datasetGetitem st getImpl index = Except.ok (getImpl m index)) ∧
    abstractDatasetInit.mode = some DataSplit.TRAIN := by
  refine ⟨fun h => ?_, fun m h => ?_, rfl⟩ <;>
    cases st <;>
    simp_all [datasetLen, datasetGetitem]

theorem invalid_state_behavior_witness :
    datasetLen ⟨none⟩ (fun _ => 0) = Except.error PyError.valueError ∧
    datasetGetitem ⟨none⟩ (fun _ _ => ([], 0)) 0 = Except.error PyError.valueError :=
  (invalid_state_behavior ⟨none⟩ (fun _ => 0) (fun _ _ => ([], 0)) 0).1 rfl

/-! ### CcGANDatasetWrapper (src/data/ccgan_wrapper.py)

`__init__` builds `self.labels`, a dict from each distinct observed label to
the indices carrying it, and records the min/max observed label; `_getitem`
with `VicinityType.HARD` draws a noisy label, selects a candidate image in
the vicinity window, and draws a target label. The wrapped dataset is
abstracted to the list of its per-index observed labels; the RNG draws are
explicit parameters. -/

/-- The keys of a Python dict built by repeated insertion: distinct values in
first-occurrence order. Models `self.labels.keys()` for the defaultdict built
by `CcGANDatasetWrapper.__init__` (`np.asarray` of those keys is modelled as
the list of distinct observed labels, per the spec). -/
def pyDictKeys (labels : List ℚ) : List ℚ :=
  labels.foldl (fun acc y => if y ∈ acc then acc else acc ++ [y]) []

/-- Embeds `np.min` over a nonempty array (0 as the irrelevant empty default). -/
def np_min : List ℚ → ℚ
  | [] => 0
  | x :: xs => xs.foldl min x

/-- Embeds `np.max` over a nonempty array (0 as the irrelevant empty default). -/
def np_max : List ℚ → ℚ
  | [] => 0
  | x :: xs => xs.foldl max x

/-- Embeds `np.clip(x, lo, hi)`. -/
def npClip (x lo hi : ℚ) : ℚ := min (max x lo) hi

theorem foldl_min_le_init (xs : List ℚ) : ∀ a : ℚ, xs.foldl min a ≤ a := by
  induction xs with
  | nil => intro a; exact le_rfl
  | cons x xs ih => intro a; exact le_trans (ih (min a x)) (min_le_left a x)

theorem foldl_min_le_mem (xs : List ℚ) : ∀ a y, y ∈ xs → xs.foldl min a ≤ y := by
  induction xs with
  | nil => intro a y hy; cases hy
  | cons x xs ih =>
    intro a y hy
    rcases List.mem_cons.mp hy with rfl | hy
    · exact le_trans (foldl_min_le_init xs (min a y)) (min_le_right a y)
    · exact ih (min a x) y hy

theorem le_foldl_max_init (xs : List ℚ) : ∀ a : ℚ, a ≤ xs.foldl max a := by
  induction xs with
  | nil => intro a; exact le_rfl
  | cons x xs ih => intro a; exact le_trans (le_max_left a x) (ih (max a x))

theorem le_foldl_max_mem (xs : List ℚ) : ∀ a y, y ∈ xs → y ≤ xs.foldl max a := by
  induction xs with
  | nil => intro a y hy; cases hy
  | cons x xs ih =>
    intro a y hy
    rcases List.mem_cons.mp hy with rfl | hy
    · exact le_trans (le_max_right a y) (le_foldl_max_init xs (max a y))
    · exact ih (max a x) y hy

theorem np_min_le_of_mem (l : List ℚ) (y : ℚ) (hy : y ∈ l) : np_min l ≤ y := by
  cases l with
  | nil => cases hy
  | cons x xs =>
    rcases List.mem_cons.mp hy with rfl | hy
    · exact foldl_min_le_init xs y
    · exact foldl_min_le_mem xs x y hy

theorem le_np_max_of_mem (l : List ℚ) (y : ℚ) (hy : y ∈ l) : y ≤ np_max l := by
  cases l with
  | nil => cases hy
  | cons x xs =>
    rcases List.mem_cons.mp hy with rfl | hy
    · exact le_foldl_max_init xs y
    · exact le_foldl_max_mem xs x y hy

theorem np_min_le_np_max (l : List ℚ) (y : ℚ) (hy : y ∈ l) : np_min l ≤ np_max l :=
  le_trans (np_min_le_of_mem l y hy) (le_np_max_of_mem l y hy)

theorem npClip_le_hi (x lo hi : ℚ) : npClip x lo hi ≤ hi := min_le_right _ _

theorem lo_le_npClip (x lo hi : ℚ) (h : lo ≤ hi) : lo ≤ npClip x lo hi :=
  le_min (le_max_right x lo) h

/-- Clamping to an interval containing `n` never increases the distance to `n`. -/
theorem npClip_dist_le (t n lo hi : ℚ) (h1 : lo ≤ n) (h2 : n ≤ hi) :
    |npClip t lo hi - n| ≤ |t - n| := by
  have hub : npClip t lo hi ≤ max t n :=
    le_trans (min_le_left _ _) (max_le_max le_rfl h1)
  have hlb : min t n ≤ npClip t lo hi :=
    le_trans (min_le_min le_rfl h2) (min_le_min (le_max_left t lo) le_rfl)
  rw [abs_sub_le_iff]
  constructor
  · rcases le_total t n with h | h
    · rw [max_eq_right h] at hub
      linarith [abs_nonneg (t - n)]
    · rw [max_eq_left h] at hub
      linarith [le_abs_self (t - n)]
  · rcases le_total t n with h | h
    · rw [min_eq_left h] at hlb
      linarith [le_abs_self (n - t), abs_sub_comm t n]
    · rw [min_eq_right h] at hlb
      linarith [abs_nonneg (t - n)]

/-- Embeds `np.random.uniform(c - h, c + h)` modelled as `(c - h) + 2 * h * u` for a
unit draw `u ∈ [0, 1)` stays within `h` of `c`. -/
theorem uniform_vicinity_bound (c h u : ℚ) (hh : 0 ≤ h) (h0 : 0 ≤ u) (h1 : u < 1) :
    |((c - h) + 2 * h * u) - c| ≤ h := by
  rw [abs_le]
  constructor <;>
    nlinarith [mul_nonneg hh h0, mul_le_of_le_one_right hh h1.le]

/-- The label bundle returned by `CcGANDatasetWrapper._getitem`. -/
structure CcGANLabelBundle where
  labels : ℚ
  loss_weights : ℚ
  target_labels : ℚ
  target_weights : ℚ
deriving DecidableEq, Repr

/-- Embeds `noisy_label = sample_label + np.random.normal(scale=sigma)`, clipped to
the observed label range when `clip` is set (`eps` is the Gaussian draw). -/
def ccganNoisyLabel (labels : List ℚ) (clip : Bool) (sample_label eps : ℚ) : ℚ :=
  let noisy0 := sample_label + eps
  if clip then npClip noisy0 (np_min (pyDictKeys labels)) (np_max (pyDictKeys labels))
  else noisy0

/-- Embeds `candidate_labels`: the unique observed labels within `hyperparam` of the
noisy label (inclusive absolute difference). -/
def ccganCandidateLabels (labels : List ℚ) (hyperparam noisy : ℚ) : List ℚ :=
  (pyDictKeys labels).filter (fun l => decide (|l - noisy| ≤ hyperparam))

/-- Embeds `candidate_idxs`: for each candidate label, the sample indices carrying it
(`self.labels[label]`, i.e. the indices of the wrapped dataset in ascending
order). -/
def ccganCandidateIdxs (labels : List ℚ) (hyperparam noisy : ℚ) : List ℕ :=
  (ccganCandidateLabels labels hyperparam noisy).flatMap (fun l =>
    (List.range labels.length).filter (fun i => decide (labels.getD i 0 = l)))

/-- Embeds `target_label = np.random.uniform(noisy - hyperparam, noisy + hyperparam)`
(unit draw `u`), clipped to the observed range when `clip` is set. -/
def ccganTargetLabel (labels : List ℚ) (hyperparam : ℚ) (clip : Bool) (noisy u : ℚ) : ℚ :=
  let target0 := (noisy - hyperparam) + 2 * hyperparam * u
  if clip then npClip target0 (np_min (pyDictKeys labels)) (np_max (pyDictKeys labels))
  else target0

/-- Embeds `CcGANDatasetWrapper._getitem` with `VicinityType.HARD`: the selected image
index and the returned label bundle (`labels`, `loss_weights = 1`,
`target_labels`, `target_weights = 1`). `pick` is the position selected by
`np.random.choice(candidate_idxs)`; the result is `none` when the candidate
set is empty (a fatal error in numpy). -/
def ccganGetitemHARD (labels : List ℚ) (hyperparam : ℚ) (clip : Bool)
    (sample_label eps u : ℚ) (pick : ℕ) : Option (ℕ × CcGANLabelBundle) :=
  ((ccganCandidateIdxs labels hyperparam
      (ccganNoisyLabel labels clip sample_label eps))[pick]?).map (fun image_idx =>
    (image_idx,
      ⟨ccganNoisyLabel labels clip sample_label eps, 1,
        ccganTargetLabel labels hyperparam clip
          (ccganNoisyLabel labels clip sample_label eps) u, 1⟩))

/-- C1: every sample generated by `CcGANDatasetWrapper._getitem` with HARD
vicinity satisfies: the noisy label is within `hyperparam` of the observed
label of the selected image, the target label is within `hyperparam` of the
noisy label, and with `clip = true` both the noisy and the target label lie
in the observed label range `[min_label, max_label]`. -/
theorem ccgan_hard_vicinity_bounds
    (labels : List ℚ) (hyperparam : ℚ) (clip : Bool) (sample_label eps u : ℚ)
    (pick : ℕ) (image_idx : ℕ) (bundle : CcGANLabelBundle)
    (hhp : 0 ≤ hyperparam) (hu0 : 0 ≤ u) (hu1 : u < 1)
    (hres : ccganGetitemHARD labels hyperparam clip sample_label eps u pick =
      some (image_idx, bundle)) :
    |bundle.labels - labels.getD image_idx 0| ≤ hyperparam ∧
    |bundle.target_labels - bundle.labels| ≤ hyperparam ∧
    (clip = true →
      np_min (pyDictKeys labels) ≤ bundle.labels ∧
      bundle.labels ≤ np_max (pyDictKeys labels) ∧
      np_min (pyDictKeys labels) ≤ bundle.target_labels ∧
      bundle.target_labels ≤ np_max (pyDictKeys labels)) := by
  unfold ccganGetitemHARD at hres
  rcases hg : (ccganCandidateIdxs labels hyperparam
      (ccganNoisyLabel labels clip sample_label eps))[pick]? with _ | idx0
  · rw [hg] at hres
    exact Option.noConfusion hres
  · rw [hg] at hres
    simp only [Option.map_some', Option.some.injEq, Prod.mk.injEq] at hres
    obtain ⟨hidx, hbundle⟩ := hres
    subst hbundle
    rw [hidx] at hg
    have hmem : image_idx ∈ ccganCandidateIdxs labels hyperparam
        (ccganNoisyLabel labels clip sample_label eps) := List.getElem?_mem hg
    rw [ccganCandidateIdxs] at hmem
    obtain ⟨l, hl, hidx⟩ := List.mem_flatMap.mp hmem
    obtain ⟨hluniq, hlnear⟩ := List.mem_filter.mp hl
    have hlnear : |l - ccganNoisyLabel labels clip sample_label eps| ≤ hyperparam :=
      of_decide_eq_true hlnear
    obtain ⟨_, hlab⟩ := List.mem_filter.mp hidx
    have hlab : labels.getD image_idx 0 = l := of_decide_eq_true hlab
    have hluniq : l ∈ pyDictKeys labels := (List.mem_filter.mp hl).1
    have hlohi : np_min (pyDictKeys labels) ≤ np_max (pyDictKeys labels) :=
      np_min_le_np_max _ l hluniq
    refine ⟨?_, ?_, ?_⟩
    · show |ccganNoisyLabel labels clip sample_label eps - labels.getD image_idx 0| ≤
        hyperparam
      rw [hlab, abs_sub_comm]
      exact hlnear
    · rcases Bool.eq_false_or_eq_true clip with hc | hc
      · subst hc
        have hn1 : np_min (pyDictKeys labels) ≤
            ccganNoisyLabel labels true sample_label eps :=
          lo_le_npClip _ _ _ hlohi
        have hn2 : ccganNoisyLabel labels true sample_label eps ≤
            np_max (pyDictKeys labels) :=
          npClip_le_hi _ _ _
        show |npClip ((ccganNoisyLabel labels true sample_label eps - hyperparam) +
              2 * hyperparam * u)
            (np_min (pyDictKeys labels)) (np_max (pyDictKeys labels)) -
          ccganNoisyLabel labels true sample_label eps| ≤ hyperparam
        exact le_trans (npClip_dist_le _ _ _ _ hn1 hn2)
          (uniform_vicinity_bound _ _ _ hhp hu0 hu1)
      · subst hc
        show |((ccganNoisyLabel labels false sample_label eps - hyperparam) +
            2 * hyperparam * u) - ccganNoisyLabel labels false sample_label eps| ≤
          hyperparam
        exact uniform_vicinity_bound _ _ _ hhp hu0 hu1
    · intro hclip
      subst hclip
      have hn1 : np_min (pyDictKeys labels) ≤
          ccganNoisyLabel labels true sample_label eps :=
        lo_le_npClip _ _ _ hlohi
      have hn2 : ccganNoisyLabel labels true sample_label eps ≤
          np_max (pyDictKeys labels) :=
        npClip_le_hi _ _ _
      exact ⟨hn1, hn2, lo_le_npClip _ _ _ hlohi, npClip_le_hi _ _ _⟩

theorem ccgan_hard_vicinity_bounds_witness :
    |(3/5 : ℚ) - ([0, 1/2, 1] : List ℚ).getD 1 0| ≤ 1/4 ∧
    |(3/5 : ℚ) - 3/5| ≤ 1/4 ∧
    (true = true →
      np_min (pyDictKeys [0, 1/2, 1]) ≤ (3/5 : ℚ) ∧
      (3/5 : ℚ) ≤ np_max (pyDictKeys [0, 1/2, 1]) ∧
      np_min (pyDictKeys [0, 1/2, 1]) ≤ (3/5 : ℚ) ∧
      (3/5 : ℚ) ≤ np_max (pyDictKeys [0, 1/2, 1])) :=
  ccgan_hard_vicinity_bounds [0, 1/2, 1] (1/4) true (1/2) (1/10) (1/2) 0 1
    ⟨3/5, 1, 3/5, 1⟩ (by norm_num) (by norm_num) (by norm_num)
    (by norm_num [ccganGetitemHARD, ccganNoisyLabel, ccganCandidateIdxs,
      ccganCandidateLabels, ccganTargetLabel, pyDictKeys, np_min, np_max, npClip,
      List.filter_cons, List.filter_nil, List.range_succ, List.filter_append,
      List.foldl, List.getD, abs_le])

/-! ### HSVFashionMNIST label generation (src/data/fashion_mnist.py, lines 76-81) -/

/-- Embeds `np.mod(x, 1)`: the fractional part `x - ⌊x⌋`, in [0, 1). -/
def npMod1 (x : ℚ) : ℚ := x - ⌊x⌋

/-- The `(hues, ys)` arrays built by `HSVFashionMNIST.__init__` when
`n_clusters is None`: `self.hues = np.random.uniform(min_hue, max_hue,
total_samples)` (the `uniformDraws`), then `self.ys = self.hues` binds `ys`
to the same numpy buffer, and under `noisy_labels` the in-place updates
`self.ys += np.random.normal(size=..., scale=1e-2)` (the `noiseDraws`) and
`self.ys %= 1` mutate that shared buffer, so both `hues` and `ys` end up
holding the noised, mod-1-wrapped values. -/
def hsvInitNoClusters (uniformDraws noiseDraws : List ℚ) (noisy_labels : Bool) :
    List ℚ × List ℚ :=
  if noisy_labels then
    let updated := (uniformDraws.zip noiseDraws).map (fun p => npMod1 (p.1 + p.2))
    (updated, updated)
  else (uniformDraws, uniformDraws)

/-- C3: evaluation at the failing input. With a single sample, a uniform hue
draw of 1/2 and a noise draw of 3/10, the constructed `hues` array holds the
noised value 4/5 — not the clean draw 1/2 the claim requires — and `ys`
equals `hues` exactly (the noise is applied to the shared buffer, not to the
exposed label only). -/
theorem hsv_noisy_labels_alias :
    hsvInitNoClusters [1/2] [3/10] true = ([4/5], [4/5]) ∧
    (hsvInitNoClusters [1/2] [3/10] true).1 ≠ [1/2] ∧
    (hsvInitNoClusters [1/2] [3/10] true).1 =
      (hsvInitNoClusters [1/2] [3/10] true).2 := by
  have hfl : ⌊(1/2 + 3/10 : ℚ)⌋ = 0 := by
    rw [Int.floor_eq_zero_iff]
    constructor <;> norm_num
  refine ⟨?_, ?_, ?_⟩ <;>
    simp only [hsvInitNoClusters, npMod1, List.zip_cons_cons, List.zip_nil_right,
      List.map_cons, List.map_nil, if_true, hfl] <;>
    norm_num

/-! ### pairwise_deterministic_shuffle (src/util/pytorch_utils.py, lines 126-133) -/

/-- Python `zip(*iterables)` over lists: the position-wise tuples (tuples as
lists), truncated at the shortest iterable. -/
def pyZipLen {α : Type} (its : List (List α)) : ℕ :=
  match its.map List.length with
  | [] => 0
  | x :: xs => xs.foldl min x

/-- Python `zip(*its)` as a list of position-wise tuples. -/
def pyZip {α : Type} [Inhabited α] (its : List (List α)) : List (List α) :=
  (List.range (pyZipLen its)).map (fun i => its.map (fun it => it.getD i default))

/-- Embeds `pairwise_deterministic_shuffle(*args)`: `temp = list(zip(args))` zips the
argument tuple itself (note: `zip(args)`, not `zip(*args)`), wrapping each
whole sequence in a 1-tuple; `random.shuffle(temp)` under seed 0 permutes
`temp` (the `shuffle` parameter, constrained to produce a permutation in the
theorems); the caller's RNG state is then restored, and `next(zip(*temp))`
returns the single position-0 tuple collecting the (reordered) sequences. -/
def pairwise_deterministic_shuffle (args : List (List ℚ))
    (shuffle : List (List (List ℚ)) → List (List (List ℚ))) : List (List ℚ) :=
  (pyZip (shuffle (pyZip [args]))).getD 0 []

theorem pyZip_single {α : Type} [Inhabited α] (xs : List α) :
    pyZip [xs] = xs.map (fun a => [a]) := by
  have hlen : pyZipLen [xs] = xs.length := rfl
  rw [pyZip, hlen]
  apply List.ext_getElem
  · simp
  · intro i h1 h2
    have hi : i < xs.length := by simpa using h2
    simp only [List.getElem_map, List.getElem_range, List.map_cons, List.map_nil,
      List.getD_eq_getElem _ _ hi]

theorem foldl_min_nat_const (l : List ℕ) : ∀ a : ℕ, (∀ y ∈ l, y = a) → l.foldl min a = a := by
  induction l with
  | nil => intro a _; rfl
  | cons x xs ih =>
    intro a h
    have hx : x = a := h x (List.mem_cons_self x xs)
    rw [hx, List.foldl_cons, min_self]
    exact ih a (fun y hy => h y (List.mem_cons_of_mem x hy))

theorem pyZipLen_all_one {α : Type} (its : List (List α)) (hne : its ≠ [])
    (h : ∀ t ∈ its, t.length = 1) : pyZipLen its = 1 := by
  cases its with
  | nil => exact absurd rfl hne
  | cons x xs =>
    have hx : x.length = 1 := h x (List.mem_cons_self x xs)
    show (xs.map List.length).foldl min x.length = 1
    rw [hx]
    apply foldl_min_nat_const
    intro y hy
    obtain ⟨t, ht, rfl⟩ := List.mem_map.mp hy
    exact h t (List.mem_cons_of_mem x ht)

/-- C4: for every argument tuple and every permutation the seeded
`random.shuffle` may produce, `pairwise_deterministic_shuffle` returns the
input sequences themselves, merely reordered among each other as whole
sequences (a permutation of the list of sequences); no common permutation of
element positions is ever applied inside the sequences, contrary to the
claimed lock-step element shuffle. -/
theorem pairwise_shuffle_permutes_whole_sequences (args : List (List ℚ))
    (shuffle : List (List (List ℚ)) → List (List (List ℚ)))
    (hne : args ≠ [])
    (hperm : List.Perm (shuffle (pyZip [args])) (pyZip [args])) :
    List.Perm (pairwise_deterministic_shuffle args shuffle) args := by
  have hps : pyZip [args] = args.map (fun a => [a]) := pyZip_single args
  have hones : ∀ t ∈ shuffle (pyZip [args]), t.length = 1 := by
    intro t ht
    have hmem := hperm.mem_iff.mp ht
    rw [hps] at hmem
    obtain ⟨s, _, rfl⟩ := List.mem_map.mp hmem
    rfl
  have hsne : shuffle (pyZip [args]) ≠ [] := by
    intro hempty
    rw [hempty] at hperm
    have h0 := hperm.symm.eq_nil
    rw [hps] at h0
    cases args with
    | nil => exact absurd rfl hne
    | cons a l => simp at h0
  have hlen : pyZipLen (shuffle (pyZip [args])) = 1 :=
    pyZipLen_all_one _ hsne hones
  have hz : pyZip (shuffle (pyZip [args])) =
      [(shuffle (pyZip [args])).map (fun t => t.getD 0 default)] := by
    rw [pyZip, hlen]
    rfl
  rw [pairwise_deterministic_shuffle, hz]
  show List.Perm ((shuffle (pyZip [args])).map (fun t => t.getD 0 default)) args
  rw [hps]
  have hmapped := hperm.map (fun t => t.getD 0 (default : List ℚ))
  rw [hps, List.map_map] at hmapped
  have hid : args.map ((fun t => t.getD 0 (default : List ℚ)) ∘ fun a => [a]) = args := by
    rw [show ((fun t => t.getD 0 (default : List ℚ)) ∘ fun a => [a]) = id from rfl,
      List.map_id]
  rw [hid] at hmapped
  exact hmapped

theorem pairwise_shuffle_permutes_whole_sequences_witness :
    List.Perm
      (pairwise_deterministic_shuffle [[1, 2], [3, 4], [5, 6]] List.reverse)
      [[1, 2], [3, 4], [5, 6]] :=
  pairwise_shuffle_permutes_whole_sequences [[1, 2], [3, 4], [5, 6]] List.reverse
    (List.cons_ne_nil _ _) (List.reverse_perm _)

/-! ### HSVFashionMNIST.performance reduction (src/data/fashion_mnist.py, lines 205-241) -/

/-- Embeds `torch.mean` of a 1-D tensor: sum divided by length. -/
def tmean (l : List ℚ) : ℚ := l.sum / l.length

/-- Embeds `torch.sum` of a 1-D tensor. -/
def torchSum (l : List ℚ) : ℚ := l.sum

/-- The record `HSVFashionMNISTPerformance` with its seven metric fields. -/
structure HSVPerf (α : Type) where
  hsv_mae_h : α
  hsv_mae_s : α
  hsv_mae_v : α
  hsv_l1 : α
  hsv_l2 : α
  rgb_l1 : α
  rgb_l2 : α
deriving DecidableEq, Repr

/-- Modelled from the spec: `DataclassExtensions.map` (util/dataclasses.py is
absent from the source tree) applies a function to every field, returning a
record of the same shape. -/
def HSVPerf.map {α β : Type} (f : α → β) (p : HSVPerf α) : HSVPerf β :=
  ⟨f p.hsv_mae_h, f p.hsv_mae_s, f p.hsv_mae_v, f p.hsv_l1, f p.hsv_l2,
    f p.rgb_l1, f p.rgb_l2⟩

/-- A torch tensor holding either a 0-d scalar (after MEAN/SUM reduction) or a
1-D per-sample vector (reduction NONE). -/
inductive TensorQ
  | scalar (x : ℚ)
  | vec (l : List ℚ)
deriving DecidableEq, Repr

/-- The reduction applied by `HSVFashionMNIST.performance` to one field:
`torch.mean` for MEAN, `torch.sum` for SUM, identity for NONE. -/
def reduceWith (r : ReductionType) (l : List ℚ) : TensorQ :=
  match r with
  | ReductionType.MEAN => TensorQ.scalar (tmean l)
  | ReductionType.SUM => TensorQ.scalar (torchSum l)
  | ReductionType.NONE => TensorQ.vec l

/-- The reduction stage of `HSVFashionMNIST.performance`: the seven per-sample
score vectors (`h_error`, `s_error`, `v_error`, `hsv_l1`, `hsv_l2`, `rgb_l1`,
`rgb_l2`, each one value per batch sample) are assembled into the record and
`return_values.map(reduce)` is applied. -/
def performanceReduce (r : ReductionType) (vals : HSVPerf (List ℚ)) : HSVPerf TensorQ :=
  vals.map (reduceWith r)

/-- C7: for a batch of per-sample scores (each of the seven fields one value
per sample, batch size `n > 0`), `performance(..., SUM)` equals the
elementwise sum over the batch of the `performance(..., NONE)` vectors, and
`performance(..., MEAN)` equals that sum divided by the batch size,
identically for all seven fields. -/
theorem performance_reduction_consistency (vals : HSVPerf (List ℚ)) (n : ℕ)
    (hn : 0 < n) (hlen : vals.map List.length = ⟨n, n, n, n, n, n, n⟩) :
    performanceReduce ReductionType.SUM vals =
      vals.map (fun l => TensorQ.scalar l.sum) ∧
    performanceReduce ReductionType.MEAN vals =
      vals.map (fun l => TensorQ.scalar (l.sum / n)) ∧
    performanceReduce ReductionType.NONE vals = vals.map TensorQ.vec := by
  obtain ⟨l1, l2, l3, l4, l5, l6, l7⟩ := vals
  simp only [HSVPerf.map, HSVPerf.mk.injEq] at hlen
  obtain ⟨h1, h2, h3, h4, h5, h6, h7⟩ := hlen
  refine ⟨rfl, ?_, rfl⟩
  simp only [performanceReduce, HSVPerf.map, reduceWith, tmean, HSVPerf.mk.injEq,
    h1, h2, h3, h4, h5, h6, h7]

theorem performance_reduction_consistency_witness :
    performanceReduce ReductionType.SUM ⟨[1], [1], [1], [1], [1], [1], [1]⟩ =
      (⟨[1], [1], [1], [1], [1], [1], [1]⟩ : HSVPerf (List ℚ)).map
        (fun l => TensorQ.scalar l.sum) ∧
    performanceReduce ReductionType.MEAN ⟨[1], [1], [1], [1], [1], [1], [1]⟩ =
      (⟨[1], [1], [1], [1], [1], [1], [1]⟩ : HSVPerf (List ℚ)).map
        (fun l => TensorQ.scalar (l.sum / (1 : ℕ))) ∧
    performanceReduce ReductionType.NONE ⟨[1], [1], [1], [1], [1], [1], [1]⟩ =
      (⟨[1], [1], [1], [1], [1], [1], [1]⟩ : HSVPerf (List ℚ)).map TensorQ.vec :=
  performance_reduction_consistency ⟨[1], [1], [1], [1], [1], [1], [1]⟩ 1
    (by norm_num) rfl

/-! ### relativistic_loss (src/util/pytorch_utils.py, lines 49-53) -/

/-- Embeds `relativistic_loss(real_sources, real_average, fake_sources,
sample_weights)`: least-squares relativistic discriminator objective. -/
def relativistic_loss (real_sources : List ℚ) (real_average : ℚ)
    (fake_sources : List ℚ) (sample_weights : List ℚ) : ℚ :=
  let fake_average := tmean fake_sources
  let real_loss := tmean (List.zipWith
    (fun w r => w * (r - fake_average + 1) ^ 2) sample_weights real_sources)
  let fake_loss := tmean (fake_sources.map (fun f => (f - real_average - 1) ^ 2))
  (real_loss + fake_loss) / 2

theorem tmean_replicate (n : ℕ) (hn : 0 < n) (x : ℚ) :
    tmean (List.replicate n x) = x := by
  rw [tmean, List.sum_replicate, List.length_replicate, nsmul_eq_mul, mul_comm,
    mul_div_assoc, div_self (by exact_mod_cast hn.ne' : (n : ℚ) ≠ 0), mul_one]

theorem zipWith_replicate_self {α β γ : Type} (f : α → β → γ) (n : ℕ) (a : α) (b : β) :
    List.zipWith f (List.replicate n a) (List.replicate n b) =
      List.replicate n (f a b) := by
  induction n with
  | zero => rfl
  | succ n ih => simp only [List.replicate_succ, List.zipWith_cons_cons, ih]

/-- C8: `relativistic_loss` on constant batches: for any batch size `n > 0`,
constant real score `r`, constant fake score `f`, precomputed real average
`ra` and unit weights, the result is
`((r - f + 1)^2 + (f - ra - 1)^2) / 2`; in particular for `r = 1`, `f = 0`,
`ra = 1` the result is exactly 4. -/
theorem relativistic_loss_spec (n : ℕ) (hn : 0 < n) (r ra f : ℚ) :
    relativistic_loss (List.replicate n r) ra (List.replicate n f)
        (List.replicate n 1) =
      ((r - f + 1) ^ 2 + (f - ra - 1) ^ 2) / 2 ∧
    relativistic_loss (List.replicate n (1 : ℚ)) 1 (List.replicate n 0)
        (List.replicate n 1) = 4 := by
  have key : ∀ r' ra' f' : ℚ,
      relativistic_loss (List.replicate n r') ra' (List.replicate n f')
        (List.replicate n 1) = ((r' - f' + 1) ^ 2 + (f' - ra' - 1) ^ 2) / 2 := by
    intro r' ra' f'
    rw [relativistic_loss]
    simp only [tmean_replicate n hn, zipWith_replicate_self, List.map_replicate,
      tmean_replicate n hn]
    ring
  refine ⟨key r ra f, ?_⟩
  rw [key 1 1 0]
  norm_num

theorem relativistic_loss_spec_witness :
    relativistic_loss (List.replicate 2 (1 : ℚ)) 1 (List.replicate 2 0)
      (List.replicate 2 1) = 4 :=
  (relativistic_loss_spec 2 (by norm_num) 1 1 0).2

/-! ### HSVFashionMNIST.test_model (src/data/fashion_mnist.py, lines 275-308) -/

/-- Embeds `n_attempts` in `test_model`. -/
def n_attempts : ℕ := 100

/-- Batching helper: consecutive chunks of size `B` (fuel-driven recursion on
the list length). -/
def chunkAux {α : Type} (B : ℕ) : ℕ → List α → List (List α)
  | 0, _ => []
  | _ + 1, [] => []
  | fuel + 1, x :: xs => (x :: xs).take B :: chunkAux B fuel ((x :: xs).drop B)

/-- The batches delivered by `DataLoader(self, batch_size, shuffle=False, ...)`
over a dataset of the given elements: consecutive chunks in dataset order,
the last batch possibly short. -/
def dataLoaderBatches {α : Type} (B : ℕ) (l : List α) : List (List α) :=
  chunkAux B l.length l

/-- Modelled from the spec: `util.dataclasses.Metric` (absent from the source
tree); `Metric.from_list` summarizes a flat list of sample scores, recording
their count and mean. -/
structure Metric where
  n_samples : ℕ
  mean : ℚ
deriving DecidableEq, Repr

/-- Modelled from the spec: `Metric.from_list`. -/
def Metric.from_list (l : List ℚ) : Metric := ⟨l.length, tmean l⟩

/-- Modelled from the spec: `DataclassExtensions.extend` (util/dataclasses.py
is absent from the source tree) appends another same-shaped record's field
values fieldwise. -/
def HSVPerf.extend (p q : HSVPerf (List ℚ)) : HSVPerf (List ℚ) :=
  ⟨p.hsv_mae_h ++ q.hsv_mae_h, p.hsv_mae_s ++ q.hsv_mae_s,
    p.hsv_mae_v ++ q.hsv_mae_v, p.hsv_l1 ++ q.hsv_l1, p.hsv_l2 ++ q.hsv_l2,
    p.rgb_l1 ++ q.rgb_l1, p.rgb_l2 ++ q.rgb_l2⟩

/-- One attempt's `performance(images, labels, fakes, targets,
ReductionType.NONE)` for a batch, flattened by
`.map(lambda t: t.squeeze().tolist())` to plain per-sample score lists:
`score attempt i` stands for the per-sample record the pipeline (target
sampling, generator transform, scoring) yields for sample `i` on that
attempt. -/
def batchPerformanceNONE (batch : List ℕ) (attempt : ℕ)
    (score : ℕ → ℕ → HSVPerf ℚ) : HSVPerf (List ℚ) :=
  ⟨batch.map (fun i => (score attempt i).hsv_mae_h),
    batch.map (fun i => (score attempt i).hsv_mae_s),
    batch.map (fun i => (score attempt i).hsv_mae_v),
    batch.map (fun i => (score attempt i).hsv_l1),
    batch.map (fun i => (score attempt i).hsv_l2),
    batch.map (fun i => (score attempt i).rgb_l1),
    batch.map (fun i => (score attempt i).rgb_l2)⟩

/-- The inner attempt loop of `test_model`: `for attempt in range(n_attempts)`
accumulating `total_performance.extend(batch_performance)`. -/
def testModelAttempts (batch : List ℕ) (score : ℕ → ℕ → HSVPerf ℚ)
    (attempts : ℕ) (acc : HSVPerf (List ℚ)) : HSVPerf (List ℚ) :=
  (List.range attempts).foldl
    (fun a attempt => a.extend (batchPerformanceNONE batch attempt score)) acc

/-- Embeds `HSVFashionMNIST.test_model`: sets the TEST split, iterates the test set
(`N` samples) in fixed DataLoader batches, runs `n_attempts = 100` sampling
attempts per batch, accumulates the per-sample NONE-reduced scores with
`extend`, and finally maps `Metric.from_list` over the accumulated record.
Returns the mode that was set together with the final record. -/
def test_model (N batch_size : ℕ) (score : ℕ → ℕ → HSVPerf ℚ) :
    DataSplit × HSVPerf Metric :=
  let batches := dataLoaderBatches batch_size (List.range N)
  let total := batches.foldl
    (fun acc batch => testModelAttempts batch score n_attempts acc)
    ⟨[], [], [], [], [], [], []⟩
  (DataSplit.TEST, total.map Metric.from_list)

theorem HSVPerf.map_map {α β γ : Type} (f : α → β) (g : β → γ) (p : HSVPerf α) :
    (p.map f).map g = p.map (fun x => g (f x)) := rfl

theorem chunkAux_length_sum {α : Type} (B : ℕ) (hB : 0 < B) :
    ∀ fuel (l : List α), l.length ≤ fuel →
      ((chunkAux B fuel l).map List.length).sum = l.length := by
  intro fuel
  induction fuel with
  | zero =>
    intro l hl
    rw [Nat.le_zero, List.length_eq_zero] at hl
    subst hl
    rfl
  | succ fuel ih =>
    intro l hl
    cases l with
    | nil => rfl
    | cons x xs =>
      have hdrop := ih ((x :: xs).drop B) (by
        rw [List.length_drop]
        simp only [List.length_cons] at hl ⊢
        omega)
      simp only [chunkAux, List.map_cons, List.sum_cons, hdrop, List.length_take,
        List.length_drop, List.length_cons]
      omega

theorem extend_lengths (a p : HSVPerf (List ℚ)) :
    (a.extend p).map List.length =
      ⟨a.hsv_mae_h.length + p.hsv_mae_h.length,
        a.hsv_mae_s.length + p.hsv_mae_s.length,
        a.hsv_mae_v.length + p.hsv_mae_v.length,
        a.hsv_l1.length + p.hsv_l1.length,
        a.hsv_l2.length + p.hsv_l2.length,
        a.rgb_l1.length + p.rgb_l1.length,
        a.rgb_l2.length + p.rgb_l2.length⟩ := by
  obtain ⟨a1, a2, a3, a4, a5, a6, a7⟩ := a
  obtain ⟨p1, p2, p3, p4, p5, p6, p7⟩ := p
  simp [HSVPerf.extend, HSVPerf.map]

/-- Each field of `batchPerformanceNONE` has one score per batch sample. -/
theorem batchPerformanceNONE_lengths (batch : List ℕ) (attempt : ℕ)
    (score : ℕ → ℕ → HSVPerf ℚ) :
    (batchPerformanceNONE batch attempt score).map List.length =
      ⟨batch.length, batch.length, batch.length, batch.length, batch.length,
        batch.length, batch.length⟩ := by
  simp [batchPerformanceNONE, HSVPerf.map]

theorem testModelAttempts_lengths (batch : List ℕ) (score : ℕ → ℕ → HSVPerf ℚ) :
    ∀ (attempts : ℕ) (acc : HSVPerf (List ℚ)),
      (testModelAttempts batch score attempts acc).map List.length =
        (acc.map List.length).map (fun k => k + attempts * batch.length) := by
  intro attempts
  induction attempts with
  | zero =>
    intro acc
    obtain ⟨a1, a2, a3, a4, a5, a6, a7⟩ := acc
    simp [testModelAttempts, HSVPerf.map]
  | succ m ih =>
    intro acc
    rw [testModelAttempts, List.range_succ, List.foldl_append, List.foldl_cons,
      List.foldl_nil]
    rw [show ∀ z, List.foldl
        (fun a attempt => a.extend (batchPerformanceNONE batch attempt score))
        z (List.range m) = testModelAttempts batch score m z from fun z => rfl]
    rw [extend_lengths]
    have h := ih acc
    simp only [HSVPerf.map, HSVPerf.mk.injEq] at h
    obtain ⟨e1, e2, e3, e4, e5, e6, e7⟩ := h
    simp only [HSVPerf.map, batchPerformanceNONE, List.length_map,
      HSVPerf.mk.injEq, e1, e2, e3, e4, e5, e6, e7]
    refine ⟨?_, ?_, ?_, ?_, ?_, ?_, ?_⟩ <;> ring

theorem testModelBatchesFold_lengths (score : ℕ → ℕ → HSVPerf ℚ) :
    ∀ (batches : List (List ℕ)) (acc : HSVPerf (List ℚ)),
      ((batches.foldl
          (fun acc batch => testModelAttempts batch score n_attempts acc)
          acc).map List.length) =
        (acc.map List.length).map
          (fun k => k + n_attempts * (batches.map List.length).sum) := by
  intro batches
  induction batches with
  | nil =>
    intro acc
    obtain ⟨a1, a2, a3, a4, a5, a6, a7⟩ := acc
    simp [HSVPerf.map]
  | cons b bs ih =>
    intro acc
    rw [List.foldl_cons, ih, testModelAttempts_lengths]
    obtain ⟨a1, a2, a3, a4, a5, a6, a7⟩ := acc
    simp only [HSVPerf.map, List.map_cons, List.sum_cons, HSVPerf.mk.injEq]
    refine ⟨?_, ?_, ?_, ?_, ?_, ?_, ?_⟩ <;> ring

/-- C2: `test_model` sets the TEST split, makes exactly 100 sampling attempts
per batch, and over the whole non-shuffled pass of the `N`-sample test set
accumulates, for each of the seven performance fields, exactly `N * 100`
per-sample scores, each field finally summarized by `Metric.from_list` over
those `N * 100` samples. -/
theorem test_model_protocol (N batch_size : ℕ) (hB : 0 < batch_size)
    (score : ℕ → ℕ → HSVPerf ℚ) :
    (test_model N batch_size score).1 = DataSplit.TEST ∧
    n_attempts = 100 ∧
    (test_model N batch_size score).2.map Metric.n_samples =
      ⟨N * 100, N * 100, N * 100, N * 100, N * 100, N * 100, N * 100⟩ := by
  refine ⟨rfl, rfl, ?_⟩
  have hsum : ((dataLoaderBatches batch_size (List.range N)).map List.length).sum =
      N := by
    rw [dataLoaderBatches]
    rw [chunkAux_length_sum batch_size hB (List.range N).length (List.range N)
      le_rfl]
    exact List.length_range N
  show ((dataLoaderBatches batch_size (List.range N)).foldl
      (fun acc batch => testModelAttempts batch score n_attempts acc)
      ⟨[], [], [], [], [], [], []⟩).map (fun l => (Metric.from_list l).n_samples) =
    (⟨N * 100, N * 100, N * 100, N * 100, N * 100, N * 100, N * 100⟩ : HSVPerf ℕ)
  have hlen := testModelBatchesFold_lengths score
    (dataLoaderBatches batch_size (List.range N)) ⟨[], [], [], [], [], [], []⟩
  rw [hsum] at hlen
  rw [show (fun l : List ℚ => (Metric.from_list l).n_samples) = List.length from
    rfl]
  rw [hlen]
  simp only [HSVPerf.map, List.length_nil, HSVPerf.mk.injEq, n_attempts]
  omega

theorem test_model_protocol_witness :
    (test_model 3 2 (fun _ _ => ⟨0, 0, 0, 0, 0, 0, 0⟩)).1 = DataSplit.TEST ∧
    n_attempts = 100 ∧
    (test_model 3 2 (fun _ _ => ⟨0, 0, 0, 0, 0, 0, 0⟩)).2.map Metric.n_samples =
      ⟨3 * 100, 3 * 100, 3 * 100, 3 * 100, 3 * 100, 3 * 100, 3 * 100⟩ :=
  test_model_protocol 3 2 (by norm_num) (fun _ _ => ⟨0, 0, 0, 0, 0, 0, 0⟩)

end MscSpec
